import Mathlib

/-!
# Verification of the Roma food-guide scraping pipeline (`script.py`)

A shallow embedding of the pipeline in `script.py`: the fetch wrapper
`scrape_with_requests`, the markdown normalisation `_clean_markdown`, the
prompt construction and response parsing in `process_with_openai`, the
orchestration `scrape_and_process_roma_yemek`, and the final printing
decision in `main`.

Strings are modelled as `List Char` (Python `str` of Unicode code points).
External collaborators (the HTTP transport, BeautifulSoup + markdownify,
and the OpenAI completion endpoint) are passed in as oracle parameters,
exactly at the interface boundary the program uses them.
-/

namespace RomaScraper

/-- Python whitespace (`str.strip`, regex `\s`), restricted to the ASCII
whitespace characters: space, tab, newline, carriage return, vertical tab
and form feed. -/
def isWs (c : Char) : Bool :=
  c = ' ' || c = '\t' || c = '\n' || c = '\r' || c = '\x0b' || c = '\x0c'

/-! ## Leftmost literal search

`re.search`/`re.sub` on the patterns used by the program reduce to leftmost
literal-substring search.  `splitFirst pat s` returns `some (pre, post)`
with `s = pre ++ pat ++ post` for the leftmost occurrence of `pat`, and
`none` when `pat` does not occur in `s`. -/

def splitFirst (pat : List Char) : List Char → Option (List Char × List Char)
  | [] => if pat <+: ([] : List Char) then some ([], []) else none
  | c :: cs =>
    if pat <+: (c :: cs) then some ([], (c :: cs).drop pat.length)
    else
      match splitFirst pat cs with
      | some (pre, post) => some (c :: pre, post)
      | none => none

theorem splitFirst_sound {pat s pre post : List Char}
    (h : splitFirst pat s = some (pre, post)) : s = pre ++ pat ++ post := by
  induction s generalizing pre post with
  | nil =>
    unfold splitFirst at h
    split at h
    · rename_i hp
      have hpat : pat = [] := List.prefix_nil.mp hp
      simp only [Option.some.injEq, Prod.mk.injEq] at h
      simp [← h.1, ← h.2, hpat]
    · exact absurd h (by simp)
  | cons c cs ih =>
    unfold splitFirst at h
    split at h
    · rename_i hp
      obtain ⟨t, ht⟩ := hp
      simp only [Option.some.injEq, Prod.mk.injEq] at h
      rw [← h.1, ← h.2, ← ht]
      simp [List.drop_left']
    · rename_i hp
      cases hsf : splitFirst pat cs with
      | none => rw [hsf] at h; exact absurd h (by simp)
      | some pr =>
        obtain ⟨pre', post'⟩ := pr
        rw [hsf] at h
        simp only [Option.some.injEq, Prod.mk.injEq] at h
        rw [← h.1, ← h.2, ih hsf]
        simp

theorem splitFirst_none {pat s : List Char} (h : splitFirst pat s = none) :
    ∀ a b : List Char, s ≠ a ++ pat ++ b := by
  induction s with
  | nil =>
    intro a b hab
    unfold splitFirst at h
    split at h
    · exact absurd h (by simp)
    · rename_i hp
      have ha : a = [] := by
        cases a with
        | nil => rfl
        | cons x xs => simp at hab
      subst ha
      have hpat : pat = [] := by
        cases pat with
        | nil => rfl
        | cons p ps => simp at hab
      exact hp (by simp [hpat])
  | cons c cs ih =>
    intro a b hab
    unfold splitFirst at h
    split at h
    · exact absurd h (by simp)
    · rename_i hp
      cases a with
      | nil => exact hp ⟨b, by simpa using hab.symm⟩
      | cons x xs =>
        cases hsf : splitFirst pat cs with
        | some pr => rw [hsf] at h; exact absurd h (by simp)
        | none =>
          have hx : cs = xs ++ pat ++ b := by
            simp only [List.cons_append, List.cons.injEq] at hab
            exact hab.2
          exact ih hsf xs b hx

theorem splitFirst_first {pat s pre post : List Char}
    (h : splitFirst pat s = some (pre, post)) :
    ∀ a b : List Char, s = a ++ pat ++ b → pre.length ≤ a.length := by
  induction s generalizing pre post with
  | nil =>
    intro a b _
    unfold splitFirst at h
    split at h
    · simp only [Option.some.injEq, Prod.mk.injEq] at h
      simp [← h.1]
    · exact absurd h (by simp)
  | cons c cs ih =>
    intro a b hab
    unfold splitFirst at h
    split at h
    · simp only [Option.some.injEq, Prod.mk.injEq] at h
      simp [← h.1]
    · rename_i hp
      cases hsf : splitFirst pat cs with
      | none => rw [hsf] at h; exact absurd h (by simp)
      | some pr =>
        obtain ⟨pre', post'⟩ := pr
        rw [hsf] at h
        simp only [Option.some.injEq, Prod.mk.injEq] at h
        cases a with
        | nil => exact absurd ⟨b, by simpa using hab.symm⟩ hp
        | cons x xs =>
          have hx : cs = xs ++ pat ++ b := by
            simp only [List.cons_append, List.cons.injEq] at hab
            exact hab.2
          have := ih hsf xs b hx
          rw [← h.1]
          simpa using Nat.succ_le_succ this

theorem splitFirst_of_decomp {pat s a b : List Char} (hs : s = a ++ pat ++ b) :
    ∃ pre post, splitFirst pat s = some (pre, post) := by
  induction s generalizing a b with
  | nil =>
    have ha : a = [] := by
      cases a with
      | nil => rfl
      | cons x xs => simp at hs
    subst ha
    have hpat : pat = [] := by
      cases pat with
      | nil => rfl
      | cons p ps => simp at hs
    exact ⟨[], [], by unfold splitFirst; simp [hpat]⟩
  | cons c cs ih =>
    by_cases hp : pat <+: (c :: cs)
    · exact ⟨[], (c :: cs).drop pat.length, by unfold splitFirst; simp [hp]⟩
    · cases a with
      | nil => exact absurd ⟨b, by simpa using hs.symm⟩ hp
      | cons x xs =>
        have hx : cs = xs ++ pat ++ b := by
          simp only [List.cons_append, List.cons.injEq] at hs
          exact hs.2
        obtain ⟨pre, post, hsf⟩ := ih hx
        refine ⟨c :: pre, post, ?_⟩
        unfold splitFirst
        simp [hp, hsf]

theorem splitFirst_length {pat s pre post : List Char} (hpat : pat ≠ [])
    (h : splitFirst pat s = some (pre, post)) : post.length < s.length := by
  have hs := splitFirst_sound h
  have hl := congrArg List.length hs
  simp at hl
  have : 0 < pat.length := List.length_pos.mpr hpat
  omega

/-! ## Occurrence partitioning

When a list of the shape `X ++ M ++ Y` is decomposed around an occurrence of
a pattern `p`, and the head of `p` does not occur in `M` while the head of
`M` does not occur in `p`, the occurrence of `p` cannot intersect the `M`
segment: it lies entirely inside `X` or entirely inside `Y`.  This is the
workhorse for reasoning about both regex substitutions of
`_clean_markdown`. -/

theorem head?_eq_some_ex {α : Type} {l : List α} {x : α}
    (h : l.head? = some x) : ∃ t, l = x :: t := by
  cases l with
  | nil => simp at h
  | cons a t =>
    simp only [List.head?_cons, Option.some.injEq] at h
    exact ⟨t, by rw [h]⟩

theorem occurrence_split {X M Y a p b : List Char} {ph mh : Char}
    (hph : p.head? = some ph) (hmh : M.head? = some mh)
    (hphM : ph ∉ M) (hmhp : mh ∉ p)
    (heq : X ++ M ++ Y = a ++ p ++ b) :
    (∃ x, X = a ++ p ++ x ∧ b = x ++ M ++ Y) ∨
    (∃ y, Y = y ++ p ++ b ∧ a = X ++ M ++ y) := by
  obtain ⟨pt, rfl⟩ := head?_eq_some_ex hph
  obtain ⟨mt, rfl⟩ := head?_eq_some_ex hmh
  have hcases : (a.length + (pt.length + 1) ≤ X.length) ∨
      (X.length + (mt.length + 1) ≤ a.length) ∨
      (X.length ≤ a.length ∧ a.length < X.length + (mt.length + 1)) ∨
      (a.length < X.length ∧ X.length < a.length + (pt.length + 1)) := by
    omega
  rcases hcases with hc | hc | hc | hc
  · -- the occurrence of `p` lies inside `X`
    left
    have heq' : (a ++ ph :: pt) ++ b =
        X.take (a.length + (pt.length + 1)) ++
          (X.drop (a.length + (pt.length + 1)) ++ (mh :: mt) ++ Y) := by
      calc (a ++ ph :: pt) ++ b = a ++ ph :: pt ++ b := by simp
        _ = X ++ (mh :: mt) ++ Y := heq.symm
        _ = (X.take (a.length + (pt.length + 1)) ++
              X.drop (a.length + (pt.length + 1))) ++ (mh :: mt) ++ Y := by
            rw [List.take_append_drop]
        _ = _ := by simp only [List.append_assoc]
    have hlen : (a ++ ph :: pt).length =
        (X.take (a.length + (pt.length + 1))).length := by
      simp [List.length_take]
      try omega
    have hinj := List.append_inj heq' hlen
    refine ⟨X.drop (a.length + (pt.length + 1)), ?_, ?_⟩
    · calc X = X.take (a.length + (pt.length + 1)) ++
            X.drop (a.length + (pt.length + 1)) := (List.take_append_drop _ X).symm
        _ = (a ++ ph :: pt) ++ X.drop (a.length + (pt.length + 1)) := by
            rw [hinj.1]
        _ = _ := by simp
    · simpa using hinj.2
  · -- the occurrence of `p` lies inside `Y`
    right
    have heq' : (X ++ mh :: mt) ++ Y =
        a.take (X.length + (mt.length + 1)) ++
          (a.drop (X.length + (mt.length + 1)) ++ (ph :: pt) ++ b) := by
      calc (X ++ mh :: mt) ++ Y = X ++ (mh :: mt) ++ Y := by simp
        _ = a ++ (ph :: pt) ++ b := heq
        _ = (a.take (X.length + (mt.length + 1)) ++
              a.drop (X.length + (mt.length + 1))) ++ (ph :: pt) ++ b := by
            rw [List.take_append_drop]
        _ = _ := by simp only [List.append_assoc]
    have hlen : (X ++ mh :: mt).length =
        (a.take (X.length + (mt.length + 1))).length := by
      simp [List.length_take]
      try omega
    have hinj := List.append_inj heq' hlen
    refine ⟨a.drop (X.length + (mt.length + 1)), ?_, ?_⟩
    · simpa using hinj.2
    · calc a = a.take (X.length + (mt.length + 1)) ++
            a.drop (X.length + (mt.length + 1)) := (List.take_append_drop _ a).symm
        _ = (X ++ mh :: mt) ++ a.drop (X.length + (mt.length + 1)) := by
            rw [hinj.1]
        _ = _ := by simp
  · -- impossible: `p` would start inside `M`
    exfalso
    have e1 : (a ++ (ph :: pt) ++ b)[a.length]? = some ph := by
      rw [List.append_assoc, List.getElem?_append_right (Nat.le_refl _)]
      simp
    have e2 : (X ++ (mh :: mt) ++ Y)[a.length]? =
        some ((mh :: mt).get ⟨a.length - X.length, by simp; omega⟩) := by
      rw [List.append_assoc, List.getElem?_append_right hc.1,
        List.getElem?_append, if_pos (by simp; omega), List.get_eq_getElem]
      exact List.getElem?_eq_getElem _
    rw [heq, e1] at e2
    have : ph ∈ mh :: mt := by
      have h2 := (Option.some.injEq _ _).mp e2
      rw [h2]
      exact List.get_mem _ _ _
    exact hphM this
  · -- impossible: `M` would start inside `p`
    exfalso
    have e1 : (X ++ (mh :: mt) ++ Y)[X.length]? = some mh := by
      rw [List.append_assoc, List.getElem?_append_right (Nat.le_refl _)]
      simp
    have e2 : (a ++ (ph :: pt) ++ b)[X.length]? =
        some ((ph :: pt).get ⟨X.length - a.length, by simp; omega⟩) := by
      rw [List.append_assoc, List.getElem?_append_right (Nat.le_of_lt hc.1),
        List.getElem?_append, if_pos (by simp; omega), List.get_eq_getElem]
      exact List.getElem?_eq_getElem _
    rw [← heq, e1] at e2
    have : mh ∈ ph :: pt := by
      have h2 := (Option.some.injEq _ _).mp e2
      rw [h2]
      exact List.get_mem _ _ _
    exact hmhp this

/-! ## `_clean_markdown` (script.py lines 121-141)

Three steps, in the order the source executes them:
1. `re.sub(r'\n{3,}', '\n\n', s)` — every maximal run of three or more
   consecutive newlines becomes exactly two (`collapseNewlines`);
2. `s.strip()` (`pyStrip`);
3. `re.sub(r'Skip to content.*?Biz Evde Yokuz', 'Biz Evde Yokuz', s,
   flags=re.DOTALL)` (`subBoiler`).  For this pattern the non-greedy
   leftmost-match semantics is: the match starts at the leftmost occurrence
   of `Skip to content` and ends at the first occurrence of
   `Biz Evde Yokuz` after it; substitution then continues on the remaining
   suffix (`re.sub` replaces all non-overlapping matches left to right). -/

/-- Newline-run collapsing; `k` counts the pending newlines of the current
run.  A finished run of length `n` is emitted as `min n 2` newlines. -/
def collapseGo : Nat → List Char → List Char
  | k, [] => List.replicate (min k 2) '\n'
  | k, c :: cs =>
    if c = '\n' then collapseGo (k + 1) cs
    else List.replicate (min k 2) '\n' ++ c :: collapseGo 0 cs

/-- `re.sub(r'\n{3,}', '\n\n', s)`. -/
def collapseNewlines (s : List Char) : List Char := collapseGo 0 s

/-- Python `str.strip()` over the modelled whitespace set. -/
def pyStrip (s : List Char) : List Char :=
  ((s.dropWhile isWs).reverse.dropWhile isWs).reverse

/-- The literal start anchor of the boilerplate pattern. -/
def skipPat : List Char := "Skip to content".data

/-- The literal end anchor of the boilerplate pattern, also the replacement
text. -/
def bizPat : List Char := "Biz Evde Yokuz".data

theorem skipPat_ne_nil : skipPat ≠ [] := by decide

theorem bizPat_ne_nil : bizPat ≠ [] := by decide

theorem splitFirst_nil {pat : List Char} (h : pat ≠ []) :
    splitFirst pat [] = none := by
  unfold splitFirst
  rw [if_neg]
  intro hp
  exact h (List.prefix_nil.mp hp)

/-- One fuel-indexed pass of the boilerplate substitution.  Each replaced
match consumes at least one character of the input, so fuel `s.length`
suffices (`subBoiler_eq` below gives the fuel-free unfolding). -/
def subBoilerAux : Nat → List Char → List Char
  | 0, s => s
  | fuel + 1, s =>
    (splitFirst skipPat s).elim s fun pr =>
      (splitFirst bizPat pr.2).elim s fun mp =>
        pr.1 ++ bizPat ++ subBoilerAux fuel mp.2

/-- `re.sub(r'Skip to content.*?Biz Evde Yokuz', 'Biz Evde Yokuz', s,
flags=re.DOTALL)`. -/
def subBoiler (s : List Char) : List Char := subBoilerAux s.length s

theorem subBoilerAux_nil : ∀ f, subBoilerAux f [] = [] := by
  intro f
  cases f with
  | zero => rfl
  | succ f => simp [subBoilerAux, splitFirst_nil skipPat_ne_nil]

theorem subBoilerAux_congr :
    ∀ (f g : Nat) (s : List Char), s.length ≤ f → s.length ≤ g →
      subBoilerAux f s = subBoilerAux g s := by
  intro f
  induction f with
  | zero =>
    intro g s hf _
    have hs : s = [] := List.eq_nil_of_length_eq_zero (Nat.le_zero.mp hf)
    subst hs
    rw [subBoilerAux_nil, subBoilerAux_nil]
  | succ f ih =>
    intro g s hf hg
    cases s with
    | nil => rw [subBoilerAux_nil, subBoilerAux_nil]
    | cons c cs =>
      simp only [List.length_cons] at hf hg
      cases g with
      | zero => simp at hg
      | succ g =>
        show subBoilerAux (f + 1) (c :: cs) = subBoilerAux (g + 1) (c :: cs)
        unfold subBoilerAux
        cases h1 : splitFirst skipPat (c :: cs) with
        | none => simp [h1]
        | some pr =>
          obtain ⟨pre, rest⟩ := pr
          cases h2 : splitFirst bizPat rest with
          | none => simp [h1, h2]
          | some pr2 =>
            obtain ⟨mid, post⟩ := pr2
            have hr : rest.length < (c :: cs).length :=
              splitFirst_length skipPat_ne_nil h1
            have hp : post.length < rest.length :=
              splitFirst_length bizPat_ne_nil h2
            simp only [h1, h2, Option.elim_some]
            simp only [List.length_cons] at hr
            rw [ih g post (by omega) (by omega)]

theorem subBoiler_eq (s : List Char) : subBoiler s =
    (splitFirst skipPat s).elim s (fun pr =>
      (splitFirst bizPat pr.2).elim s (fun mp =>
        pr.1 ++ bizPat ++ subBoiler mp.2)) := by
  cases s with
  | nil =>
    show subBoilerAux ([] : List Char).length [] = _
    simp [subBoilerAux_nil, splitFirst_nil skipPat_ne_nil]
  | cons c cs =>
    show subBoilerAux ((c :: cs).length) (c :: cs) = _
    rw [List.length_cons]
    unfold subBoilerAux
    cases h1 : splitFirst skipPat (c :: cs) with
    | none => simp [h1]
    | some pr =>
      obtain ⟨pre, rest⟩ := pr
      cases h2 : splitFirst bizPat rest with
      | none => simp [h1, h2]
      | some pr2 =>
        obtain ⟨mid, post⟩ := pr2
        have hr : rest.length < (c :: cs).length :=
          splitFirst_length skipPat_ne_nil h1
        have hp : post.length < rest.length :=
          splitFirst_length bizPat_ne_nil h2
        simp only [h1, h2, Option.elim_some]
        simp only [List.length_cons] at hr
        rw [subBoilerAux_congr cs.length post.length post
          (by omega) (Nat.le_refl _)]
        rfl

/-- `_clean_markdown` (script.py lines 121-141): the composition the source
executes — collapse newline runs, strip outer whitespace, then remove the
`Skip to content ... Biz Evde Yokuz` boilerplate spans. -/
def cleanMarkdown (s : List Char) : List Char :=
  subBoiler (pyStrip (collapseNewlines s))

/-- `html_to_markdown` (script.py lines 89-119): BeautifulSoup parsing,
noise-element removal, `article`/body selection and markdownify conversion
are external collaborators, abstracted as the oracle `soupMd`; the function
then applies `_clean_markdown` to the oracle's output. -/
def html_to_markdown (soupMd : List Char → List Char) (html : List Char) :
    List Char :=
  cleanMarkdown (soupMd html)

/-! ## Invariants of the normaliser -/

/-- A run of three consecutive newlines; "a substring of three or more
consecutive newline characters" exists in `s` iff `nlTriple` is an infix of
`s`. -/
def nlTriple : List Char := ['\n', '\n', '\n']

theorem not_infix_of_short {t s : List Char} (h : s.length < t.length) :
    ¬ t <:+: s := fun hi => absurd hi.length_le (by omega)

theorem mem_of_getLast? {l : List Char} {c : Char} (h : l.getLast? = some c) :
    c ∈ l := by
  have hh : l.reverse.head? = some c := by rw [List.head?_reverse]; exact h
  obtain ⟨t, ht⟩ := head?_eq_some_ex hh
  have : c ∈ l.reverse := by rw [ht]; exact List.mem_cons_self c t
  simpa using this

theorem head?_append_left {X Y : List Char} (h : X ≠ []) :
    (X ++ Y).head? = X.head? := by
  cases X with
  | nil => exact absurd rfl h
  | cons a t => simp

theorem getLast?_append_right {A B : List Char} (h : B ≠ []) :
    (A ++ B).getLast? = B.getLast? := by
  rw [← List.head?_reverse, ← List.head?_reverse, List.reverse_append,
    head?_append_left]
  simpa using h

theorem prefix_head? {p u : List Char} (hp : p <+: u) (hne : p ≠ []) :
    p.head? = u.head? := by
  obtain ⟨t, rfl⟩ := hp
  cases p with
  | nil => exact absurd rfl hne
  | cons a s => simp

/-- The collapsing pass never emits three consecutive newlines. -/
theorem collapseGo_noTriple :
    ∀ (n : Nat) (s : List Char), s.length ≤ n → ∀ k,
      ¬ nlTriple <:+: collapseGo k s := by
  intro n
  induction n with
  | zero =>
    intro s hs k
    have : s = [] := List.eq_nil_of_length_eq_zero (Nat.le_zero.mp hs)
    subst this
    show ¬ nlTriple <:+: List.replicate (min k 2) '\n'
    apply not_infix_of_short
    simp only [nlTriple, List.length_replicate, List.length_cons,
      List.length_nil]
    omega
  | succ n ih =>
    intro s hs k
    cases s with
    | nil =>
      show ¬ nlTriple <:+: List.replicate (min k 2) '\n'
      apply not_infix_of_short
      simp only [nlTriple, List.length_replicate, List.length_cons,
        List.length_nil]
      omega
    | cons c cs =>
      simp only [List.length_cons] at hs
      by_cases hc : c = '\n'
      · show ¬ nlTriple <:+: collapseGo k (c :: cs)
        simp only [collapseGo, hc, if_pos rfl]
        exact ih cs (by omega) (k + 1)
      · show ¬ nlTriple <:+: collapseGo k (c :: cs)
        simp only [collapseGo, hc, if_neg, ite_false]
        intro hinf
        obtain ⟨a, b, hab⟩ := hinf
        have hsplit := occurrence_split (X := List.replicate (min k 2) '\n')
          (M := [c]) (Y := collapseGo 0 cs) (a := a) (p := nlTriple) (b := b)
          rfl rfl
          (by simpa using fun h => hc h.symm)
          (by simp [nlTriple]; exact hc)
          (by simpa using hab.symm)
        rcases hsplit with ⟨x, hx, _⟩ | ⟨y, hy, _⟩
        · have := congrArg List.length hx
          simp [nlTriple] at this
          omega
        · exact ih cs (by omega) 0 ⟨y, b, hy.symm⟩

theorem collapseNewlines_noTriple (s : List Char) :
    ¬ nlTriple <:+: collapseNewlines s :=
  collapseGo_noTriple s.length s (Nat.le_refl _) 0

/-- Collapsing is the identity on text that already contains no triple
newline run. -/
theorem collapseGo_fix :
    ∀ (n : Nat) (s : List Char), s.length ≤ n → ¬ nlTriple <:+: s →
      collapseGo 0 s = s := by
  intro n
  induction n with
  | zero =>
    intro s hs _
    have : s = [] := List.eq_nil_of_length_eq_zero (Nat.le_zero.mp hs)
    subst this
    rfl
  | succ n ih =>
    intro s hs hnt
    cases s with
    | nil => rfl
    | cons c cs =>
      simp only [List.length_cons] at hs
      by_cases hc : c = '\n'
      · subst hc
        cases cs with
        | nil => rfl
        | cons d ds =>
          by_cases hd : d = '\n'
          · subst hd
            cases ds with
            | nil => rfl
            | cons e es =>
              by_cases he : e = '\n'
              · exfalso
                subst he
                exact hnt ⟨[], es, rfl⟩
              · show collapseGo 0 ('\n' :: '\n' :: e :: es) = _
                simp only [collapseGo, if_pos rfl, he, ite_false]
                rw [ih es (by simp at hs; omega)]
                · rfl
                · intro hinf
                  exact hnt (hinf.trans ⟨['\n', '\n', e], [], by simp⟩)
          · show collapseGo 0 ('\n' :: d :: ds) = _
            simp only [collapseGo, if_pos rfl, hd, ite_false]
            rw [ih ds (by simp at hs; omega)]
            · rfl
            · intro hinf
              exact hnt (hinf.trans ⟨['\n', d], [], by simp⟩)
      · show collapseGo 0 (c :: cs) = _
        simp only [collapseGo, hc, ite_false]
        rw [ih cs (by omega)]
        · simp
        · intro hinf
          exact hnt (hinf.trans ⟨[c], [], by simp⟩)

/-- The stripped text is an infix of the original. -/
theorem pyStrip_within (s : List Char) : pyStrip s <:+: s := by
  have h1 : s.dropWhile isWs <:+ s := List.dropWhile_suffix isWs
  have h2 : (s.dropWhile isWs).reverse.dropWhile isWs <:+
      (s.dropWhile isWs).reverse := List.dropWhile_suffix isWs
  have h3 : pyStrip s <+: s.dropWhile isWs := by
    rw [pyStrip]
    rw [← List.reverse_reverse (s.dropWhile isWs)]
    exact (List.reverse_prefix).mpr (by simpa using h2)
  exact h3.isInfix.trans h1.isInfix

/-- Heads produced by `dropWhile` never satisfy the dropped predicate. -/
theorem head?_dropWhile_false (p : Char → Bool) :
    ∀ (l : List Char) (c : Char), (l.dropWhile p).head? = some c →
      p c = false := by
  intro l
  induction l with
  | nil => intro c hc; simp [List.dropWhile] at hc
  | cons a t ih =>
    intro c hc
    by_cases pa : p a
    · rw [List.dropWhile_cons_of_pos pa] at hc
      exact ih c hc
    · rw [List.dropWhile_cons_of_neg pa] at hc
      simp only [List.head?_cons, Option.some.injEq] at hc
      subst hc
      exact Bool.eq_false_iff.mpr pa

/-- No whitespace at the head of the stripped text. -/
def headOk (s : List Char) : Prop :=
  ∀ c, s.head? = some c → isWs c = false

/-- No whitespace at the end of the stripped text. -/
def lastOk (s : List Char) : Prop :=
  ∀ c, s.getLast? = some c → isWs c = false

theorem pyStrip_headOk (s : List Char) : headOk (pyStrip s) := by
  intro c hc
  have hne : pyStrip s ≠ [] := by
    intro h
    rw [h] at hc
    simp at hc
  have h3 : pyStrip s <+: s.dropWhile isWs := by
    rw [pyStrip]
    rw [← List.reverse_reverse (s.dropWhile isWs)]
    exact (List.reverse_prefix).mpr (by simpa using List.dropWhile_suffix isWs)
  rw [prefix_head? h3 hne] at hc
  exact head?_dropWhile_false isWs _ c hc

theorem pyStrip_lastOk (s : List Char) : lastOk (pyStrip s) := by
  intro c hc
  rw [pyStrip, ← List.head?_reverse, List.reverse_reverse] at hc
  exact head?_dropWhile_false isWs _ c hc

theorem pyStrip_fix {s : List Char} (h1 : headOk s) (h2 : lastOk s) :
    pyStrip s = s := by
  have hd : s.dropWhile isWs = s := by
    cases s with
    | nil => rfl
    | cons a t =>
      have := h1 a (by simp)
      rw [List.dropWhile_cons_of_neg (by simp [this])]
  rw [pyStrip, hd]
  have hrev : s.reverse.dropWhile isWs = s.reverse := by
    cases hr : s.reverse with
    | nil => simp
    | cons b bt =>
      have hb : s.getLast? = some b := by
        rw [← List.head?_reverse, hr]
        simp
      have := h2 b hb
      rw [List.dropWhile_cons_of_neg (by simp [this])]
  rw [hrev, List.reverse_reverse]

/-! ## Structure of one `subBoiler` step -/

theorem subBoiler_nil : subBoiler [] = [] := subBoilerAux_nil 0

theorem subBoiler_decomp (s : List Char) :
    subBoiler s = s ∨
    ∃ pre mid post,
      s = pre ++ skipPat ++ (mid ++ bizPat ++ post) ∧
      subBoiler s = pre ++ bizPat ++ subBoiler post ∧
      post.length < s.length ∧
      splitFirst skipPat s = some (pre, mid ++ bizPat ++ post) := by
  cases h1 : splitFirst skipPat s with
  | none =>
    left
    rw [subBoiler_eq s, h1, Option.elim_none]
  | some pr =>
    obtain ⟨pre, rest⟩ := pr
    cases h2 : splitFirst bizPat rest with
    | none =>
      left
      rw [subBoiler_eq s, h1, Option.elim_some, h2, Option.elim_none]
    | some pr2 =>
      obtain ⟨mid, post⟩ := pr2
      right
      have hrest : rest = mid ++ bizPat ++ post := splitFirst_sound h2
      refine ⟨pre, mid, post, ?_, ?_, ?_, ?_⟩
      · rw [← hrest]; exact splitFirst_sound h1
      · rw [subBoiler_eq s, h1, Option.elim_some, h2, Option.elim_some]
      · have ha : rest.length < s.length := splitFirst_length skipPat_ne_nil h1
        have hb : post.length < rest.length := splitFirst_length bizPat_ne_nil h2
        omega
      · rw [← hrest]

theorem bizPat_head? : bizPat.head? = some 'B' := rfl

theorem bizPat_getLast? : bizPat.getLast? = some 'z' := by decide

/-- The boilerplate substitution cannot create a triple-newline run. -/
theorem subBoiler_noTriple :
    ∀ (n : Nat) (s : List Char), s.length ≤ n → ¬ nlTriple <:+: s →
      ¬ nlTriple <:+: subBoiler s := by
  intro n
  induction n with
  | zero =>
    intro s hs hnt
    have : s = [] := List.eq_nil_of_length_eq_zero (Nat.le_zero.mp hs)
    subst this
    rw [subBoiler_nil]
    exact hnt
  | succ n ih =>
    intro s hs hnt
    rcases subBoiler_decomp s with heq | ⟨pre, mid, post, hsdec, heq, hlen, -⟩
    · rw [heq]; exact hnt
    · rw [heq]
      intro hinf
      obtain ⟨a, b, hab⟩ := hinf
      have hnt_pre : ¬ nlTriple <:+: pre := fun hx =>
        hnt (hx.trans ⟨[], skipPat ++ (mid ++ bizPat ++ post), by
          simp [hsdec]⟩)
      have hnt_post : ¬ nlTriple <:+: post := fun hx =>
        hnt (hx.trans ⟨pre ++ skipPat ++ mid ++ bizPat, [], by
          simp [hsdec]⟩)
      have hnt_R : ¬ nlTriple <:+: subBoiler post :=
        ih post (by omega) hnt_post
      rcases occurrence_split (X := pre) (M := bizPat)
          (Y := subBoiler post) (p := nlTriple)
          rfl bizPat_head? (by decide) (by decide)
          (by simpa using hab.symm) with ⟨x, hx, -⟩ | ⟨y, hy, -⟩
      · exact hnt_pre ⟨a, x, hx.symm⟩
      · exact hnt_R ⟨y, b, hy.symm⟩

/-- The boilerplate substitution maps nonempty input to nonempty output. -/
theorem subBoiler_ne_nil {s : List Char} (h : s ≠ []) : subBoiler s ≠ [] := by
  rcases subBoiler_decomp s with heq | ⟨pre, mid, post, hsdec, heq, -, -⟩
  · rw [heq]; exact h
  · rw [heq]
    intro hc
    rw [List.append_eq_nil] at hc
    rw [List.append_eq_nil] at hc
    exact bizPat_ne_nil hc.1.2

/-- The boilerplate substitution preserves a whitespace-free head. -/
theorem subBoiler_headOk {s : List Char} (h : headOk s) :
    headOk (subBoiler s) := by
  rcases subBoiler_decomp s with heq | ⟨pre, mid, post, hsdec, heq, -, -⟩
  · rw [heq]; exact h
  · rw [heq]
    intro c hc
    cases pre with
    | nil =>
      simp only [List.nil_append] at hc
      rw [head?_append_left bizPat_ne_nil, bizPat_head?] at hc
      obtain rfl := Option.some.inj hc
      decide
    | cons p ps =>
      have h1 : (p :: ps ++ bizPat ++ subBoiler post).head? = some p := by
        simp
      rw [h1] at hc
      obtain rfl := Option.some.inj hc
      apply h
      simp [hsdec]

/-- The boilerplate substitution preserves a whitespace-free last
character. -/
theorem subBoiler_lastOk :
    ∀ (n : Nat) (s : List Char), s.length ≤ n → lastOk s →
      lastOk (subBoiler s) := by
  intro n
  induction n with
  | zero =>
    intro s hs hl
    have : s = [] := List.eq_nil_of_length_eq_zero (Nat.le_zero.mp hs)
    subst this
    rw [subBoiler_nil]
    exact hl
  | succ n ih =>
    intro s hs hl
    rcases subBoiler_decomp s with heq | ⟨pre, mid, post, hsdec, heq, hlen, -⟩
    · rw [heq]; exact hl
    · rw [heq]
      by_cases hpost : post = []
      · subst hpost
        intro c hc
        rw [subBoiler_nil, List.append_nil,
          getLast?_append_right bizPat_ne_nil, bizPat_getLast?] at hc
        obtain rfl := Option.some.inj hc
        decide
      · have hl_post : lastOk post := by
          intro c hc
          apply hl c
          rw [hsdec, getLast?_append_right (by simp [hpost]),
            getLast?_append_right hpost]
          exact hc
        have hR_ne : subBoiler post ≠ [] := subBoiler_ne_nil hpost
        have hl_R : lastOk (subBoiler post) := ih post (by omega) hl_post
        intro c hc
        rw [List.append_assoc, getLast?_append_right (by
            intro hcontra
            rw [List.append_eq_nil] at hcontra
            exact hR_ne hcontra.2),
          getLast?_append_right hR_ne] at hc
        exact hl_R c hc

/-! ## Idempotence of the boilerplate substitution -/

/-- A match of the boilerplate pattern `Skip to content.*?Biz Evde Yokuz`
exists in `s`: an occurrence of `skipPat` with an occurrence of `bizPat`
somewhere after it. -/
def BoilerMatch (s : List Char) : Prop :=
  ∃ a m b, s = a ++ skipPat ++ (m ++ bizPat ++ b)

theorem skipPat_head? : skipPat.head? = some 'S' := rfl

theorem skipPat_length : skipPat.length = 15 := rfl

/-- Without a remaining match the substitution is the identity. -/
theorem subBoiler_fix {s : List Char} (h : ¬ BoilerMatch s) :
    subBoiler s = s := by
  rcases subBoiler_decomp s with heq | ⟨pre, mid, post, hsdec, -, -, -⟩
  · exact heq
  · exact absurd ⟨pre, mid, post, hsdec⟩ h

/-- After the substitution no match of the boilerplate pattern remains. -/
theorem subBoiler_noMatch :
    ∀ (n : Nat) (s : List Char), s.length ≤ n → ¬ BoilerMatch (subBoiler s) := by
  intro n
  induction n with
  | zero =>
    intro s hs
    have : s = [] := List.eq_nil_of_length_eq_zero (Nat.le_zero.mp hs)
    subst this
    rw [subBoiler_nil]
    rintro ⟨a, m, b, habs⟩
    have := congrArg List.length habs
    simp [skipPat_length] at this
    omega
  | succ n ih =>
    intro s hs
    cases h1 : splitFirst skipPat s with
    | none =>
      rw [subBoiler_eq s, h1, Option.elim_none]
      rintro ⟨a, m, b, habs⟩
      exact splitFirst_none h1 a (m ++ bizPat ++ b) habs
    | some pr =>
      obtain ⟨pre, rest⟩ := pr
      have hssound := splitFirst_sound h1
      cases h2 : splitFirst bizPat rest with
      | none =>
        rw [subBoiler_eq s, h1, Option.elim_some, h2, Option.elim_none]
        rintro ⟨a, m, b, habs⟩
        have hfirst := splitFirst_first h1 a (m ++ bizPat ++ b) habs
        -- the tail of the match decomposition is a suffix of `rest`
        have e1 : (pre ++ skipPat) ++ rest =
            (a ++ skipPat) ++ (m ++ bizPat ++ b) := hssound.symm.trans habs
        have e2 : (pre ++ skipPat) ++ rest =
            (a ++ skipPat).take ((pre ++ skipPat).length) ++
              ((a ++ skipPat).drop ((pre ++ skipPat).length) ++
                (m ++ bizPat ++ b)) := by
          rw [← List.append_assoc, List.take_append_drop]
          exact e1
        have hinj := List.append_inj e2 (by
          simp [List.length_take, skipPat_length]
          omega)
        have hsuff : (m ++ bizPat ++ b) <:+ rest := by
          rw [hinj.2]
          exact List.suffix_append _ _
        have hb0 : bizPat <:+: m ++ bizPat ++ b := ⟨m, b, rfl⟩
        have hbiz : bizPat <:+: rest := hb0.trans hsuff.isInfix
        obtain ⟨m2, b2, hm2⟩ := hbiz
        obtain ⟨p2, q2, hpq⟩ := splitFirst_of_decomp hm2.symm
        rw [hpq] at h2
        exact absurd h2 (by simp)
      | some pr2 =>
        obtain ⟨mid, post⟩ := pr2
        have hpostlen : post.length < s.length := by
          have ha := splitFirst_length skipPat_ne_nil h1
          have hb := splitFirst_length bizPat_ne_nil h2
          omega
        rw [subBoiler_eq s, h1, Option.elim_some, h2, Option.elim_some]
        rintro ⟨a, m, b, habs⟩
        rcases occurrence_split (X := pre) (M := bizPat)
            (Y := subBoiler post) (p := skipPat)
            skipPat_head? bizPat_head? (by decide) (by decide)
            habs with ⟨x, hx, -⟩ | ⟨y, hy, -⟩
        · -- a `skipPat` occurrence inside `pre` contradicts leftmostness
          have hrest2 := splitFirst_sound h2
          have hfirst := splitFirst_first h1 a
            (x ++ skipPat ++ (mid ++ bizPat ++ post)) (by
              rw [hssound, hrest2, hx]
              simp [List.append_assoc])
          have hlx := congrArg List.length hx
          simp [skipPat_length] at hlx
          omega
        · exact ih post (by omega) ⟨y, m, b, hy⟩

/-- The boilerplate substitution is idempotent. -/
theorem subBoiler_idem (s : List Char) :
    subBoiler (subBoiler s) = subBoiler s :=
  subBoiler_fix (subBoiler_noMatch s.length s (Nat.le_refl _))

/-! ## Commutation of the substitution with stripping

The pattern anchors start and end with non-whitespace characters, so
occurrences can neither start inside a leading whitespace run nor end
inside a trailing one.  This lets `subBoiler` commute with `pyStrip`. -/

theorem splitFirst_cons_pos {pat : List Char} {c : Char} {cs : List Char}
    (h : pat <+: c :: cs) :
    splitFirst pat (c :: cs) = some ([], (c :: cs).drop pat.length) := by
  conv_lhs => unfold splitFirst
  rw [if_pos h]

theorem splitFirst_cons_neg {pat : List Char} {c : Char} {cs : List Char}
    (h : ¬ pat <+: c :: cs) :
    splitFirst pat (c :: cs) =
      (splitFirst pat cs).map (fun pr => (c :: pr.1, pr.2)) := by
  conv_lhs => unfold splitFirst
  rw [if_neg h]
  cases hs : splitFirst pat cs with
  | none => simp
  | some pr => simp

theorem prefix_of_prefix_append {p A B : List Char} (h : p <+: A ++ B)
    (hl : p.length ≤ A.length) : p <+: A := by
  obtain ⟨t, ht⟩ := h
  have hp : p = (A ++ B).take p.length := by
    rw [← ht, List.take_left]
  rw [hp, List.take_append_eq_append_take,
    Nat.sub_eq_zero_of_le hl, List.take_zero, List.append_nil]
  exact List.take_prefix _ _

theorem getLast_mem_of_prefix_overflow {p A B : List Char} {lc : Char}
    (h : p <+: A ++ B) (hlen : A.length < p.length)
    (hl : p.getLast? = some lc) : lc ∈ B := by
  obtain ⟨t, ht⟩ := h
  have hsplit : p.take A.length ++ (p.drop A.length ++ t) = A ++ B := by
    rw [← List.append_assoc, List.take_append_drop]
    exact ht
  have hinj := List.append_inj hsplit (by
    simp [List.length_take]
    omega)
  have hdrop_ne : p.drop A.length ≠ [] := by
    intro hcon
    have := congrArg List.length hcon
    simp at this
    omega
  have hlast : (p.drop A.length).getLast? = some lc := by
    rw [← getLast?_append_right (A := p.take A.length) hdrop_ne,
      List.take_append_drop]
    exact hl
  have : lc ∈ p.drop A.length := mem_of_getLast? hlast
  rw [← hinj.2]
  exact List.mem_append_left _ this

/-- `splitFirst` over a prefix that cannot contain the head of the
pattern. -/
theorem splitFirst_ws_before (w cl : List Char) {pat : List Char} {hch : Char}
    (hh : pat.head? = some hch) (hw : ∀ x ∈ w, x ≠ hch) :
    splitFirst pat (w ++ cl) =
      (splitFirst pat cl).map (fun pr => (w ++ pr.1, pr.2)) := by
  induction w with
  | nil =>
    simp only [List.nil_append]
    cases h : splitFirst pat cl <;> simp
  | cons x w' ih =>
    have ih' := ih (fun y hy => hw y (List.mem_cons_of_mem _ hy))
    have hx : ¬ pat <+: (x :: (w' ++ cl)) := by
      intro hp
      obtain ⟨pt, rfl⟩ := head?_eq_some_ex hh
      rw [List.cons_prefix_cons] at hp
      exact hw x (List.mem_cons_self _ _) hp.1.symm
    show splitFirst pat (x :: (w' ++ cl)) = _
    rw [splitFirst_cons_neg hx, ih']
    cases h : splitFirst pat cl with
    | none => simp
    | some pr => simp

/-- `splitFirst` over a whitespace suffix, for a pattern whose last
character is not whitespace. -/
theorem splitFirst_ws_after (cl w : List Char) {pat : List Char} {lc : Char}
    (hl : pat.getLast? = some lc) (hlc : isWs lc = false)
    (hw : ∀ x ∈ w, isWs x = true) :
    splitFirst pat (cl ++ w) =
      (splitFirst pat cl).map (fun pr => (pr.1, pr.2 ++ w)) := by
  have hpat_ne : pat ≠ [] := by
    intro h
    rw [h] at hl
    simp at hl
  induction cl with
  | nil =>
    simp only [List.nil_append]
    rw [splitFirst_nil hpat_ne]
    cases hsw : splitFirst pat w with
    | none => simp
    | some pr =>
      exfalso
      obtain ⟨pre, post⟩ := pr
      have hsound := splitFirst_sound hsw
      have hmem : lc ∈ w := by
        rw [hsound]
        have hmp : lc ∈ pat := mem_of_getLast? hl
        simp [hmp]
      have hws := hw lc hmem
      rw [hws] at hlc
      simp at hlc
  | cons x c' ih =>
    by_cases hp : pat <+: (x :: c')
    · have hp2 : pat <+: x :: (c' ++ w) :=
        hp.trans (List.prefix_append (x :: c') w)
      show splitFirst pat (x :: (c' ++ w)) = _
      rw [splitFirst_cons_pos hp2, splitFirst_cons_pos hp, Option.map_some']
      have hle : pat.length ≤ (x :: c').length := hp.length_le
      have hdrop : (x :: (c' ++ w)).drop pat.length =
          (x :: c').drop pat.length ++ w := by
        rw [show x :: (c' ++ w) = (x :: c') ++ w from rfl,
          List.drop_append_eq_append_drop,
          Nat.sub_eq_zero_of_le (by simpa using hle), List.drop_zero]
      rw [hdrop]
    · have hp2 : ¬ pat <+: x :: (c' ++ w) := by
        intro hcontra
        rw [show x :: (c' ++ w) = (x :: c') ++ w from rfl] at hcontra
        by_cases hlen : pat.length ≤ (x :: c').length
        · exact hp (prefix_of_prefix_append hcontra hlen)
        · have hmem := getLast_mem_of_prefix_overflow hcontra
            (by omega) hl
          have hws := hw lc hmem
          rw [hws] at hlc
          simp at hlc
      show splitFirst pat (x :: (c' ++ w)) = _
      rw [splitFirst_cons_neg hp2, splitFirst_cons_neg hp, ih]
      cases h : splitFirst pat c' with
      | none => simp
      | some pr => simp

/-- `subBoiler` over an all-whitespace prefix. -/
theorem subBoiler_ws_before (w cl : List Char)
    (hw : ∀ x ∈ w, isWs x = true) :
    subBoiler (w ++ cl) = w ++ subBoiler cl := by
  have hw' : ∀ x ∈ w, x ≠ 'S' := by
    intro x hx hcon
    have hws := hw x hx
    rw [hcon] at hws
    exact absurd hws (by decide)
  have hsp := splitFirst_ws_before w cl skipPat_head? hw'
  rw [subBoiler_eq (w ++ cl), hsp]
  cases h1 : splitFirst skipPat cl with
  | none =>
    rw [subBoiler_eq cl, h1]
    simp
  | some pr =>
    obtain ⟨pre, rest⟩ := pr
    rw [subBoiler_eq cl, h1]
    cases h2 : splitFirst bizPat rest with
    | none => simp [h2]
    | some pr2 => simp [h2]

theorem skipPat_getLast? : skipPat.getLast? = some 't' := by decide

/-- `subBoiler` over an all-whitespace suffix. -/
theorem subBoiler_ws_suffix :
    ∀ (n : Nat) (cl w : List Char), cl.length ≤ n →
      (∀ x ∈ w, isWs x = true) →
      subBoiler (cl ++ w) = subBoiler cl ++ w := by
  intro n
  induction n with
  | zero =>
    intro cl w hcl hw
    have : cl = [] := List.eq_nil_of_length_eq_zero (Nat.le_zero.mp hcl)
    subst this
    rw [subBoiler_nil, List.nil_append]
    apply subBoiler_fix
    rintro ⟨a, m, b, habs⟩
    have hmem : 'S' ∈ w := by
      rw [habs]
      have hms : 'S' ∈ skipPat := by decide
      simp [hms]
    have hws := hw 'S' hmem
    exact absurd hws (by decide)
  | succ n ih =>
    intro cl w hcl hw
    have hsp := splitFirst_ws_after cl w skipPat_getLast? rfl hw
    rw [subBoiler_eq (cl ++ w), hsp]
    cases h1 : splitFirst skipPat cl with
    | none =>
      rw [subBoiler_eq cl, h1]
      simp
    | some pr =>
      obtain ⟨pre, rest⟩ := pr
      have hrest : rest.length < cl.length :=
        splitFirst_length skipPat_ne_nil h1
      have hsb := splitFirst_ws_after rest w bizPat_getLast? rfl hw
      rw [subBoiler_eq cl, h1, Option.map_some', Option.elim_some,
        Option.elim_some, hsb]
      cases h2 : splitFirst bizPat rest with
      | none => simp [h2]
      | some pr2 =>
        obtain ⟨mid, post⟩ := pr2
        have hpost : post.length < rest.length :=
          splitFirst_length bizPat_ne_nil h2
        simp only [h2, Option.map_some', Option.elim_some]
        rw [ih post w (by omega) hw]
        simp [List.append_assoc]

/-! ## `_clean_markdown`: the three steps and their interplay -/

theorem dropWhile_ws_prepend {u Z : List Char} (hu : ∀ x ∈ u, isWs x = true) :
    (u ++ Z).dropWhile isWs = Z.dropWhile isWs := by
  induction u with
  | nil => simp
  | cons x u' ih =>
    have hx : isWs x = true := hu x (List.mem_cons_self _ _)
    show ((x :: (u' ++ Z)).dropWhile isWs) = _
    rw [List.dropWhile_cons_of_pos hx]
    exact ih (fun y hy => hu y (List.mem_cons_of_mem _ hy))

theorem pyStrip_ws_prepend {u Z : List Char} (hu : ∀ x ∈ u, isWs x = true) :
    pyStrip (u ++ Z) = pyStrip Z := by
  rw [pyStrip, pyStrip, dropWhile_ws_prepend hu]

theorem pyStrip_ws_append {Z v : List Char} (hv : ∀ x ∈ v, isWs x = true) :
    pyStrip (Z ++ v) = pyStrip Z := by
  rw [pyStrip, pyStrip, List.dropWhile_append]
  by_cases hz : (Z.dropWhile isWs).isEmpty
  · rw [if_pos hz]
    have hzn : Z.dropWhile isWs = [] := by
      simpa [List.isEmpty_iff] using hz
    have hvn : v.dropWhile isWs = [] := by
      cases hcv : v.dropWhile isWs with
      | nil => rfl
      | cons a t =>
        exfalso
        have ha : isWs a = false := by
          apply head?_dropWhile_false isWs v
          rw [hcv]
          simp
        have hmem : a ∈ v := by
          have hin : a ∈ v.dropWhile isWs := by rw [hcv]; simp
          exact (List.dropWhile_suffix isWs).sublist.subset hin
        rw [hv a hmem] at ha
        simp at ha
    rw [hvn, hzn]
  · rw [if_neg hz]
    rw [List.reverse_append]
    rw [dropWhile_ws_prepend (by
      intro x hx
      rw [List.mem_reverse] at hx
      exact hv x hx)]

theorem pyStrip_decomp (s : List Char) :
    ∃ u v, s = u ++ pyStrip s ++ v ∧
      (∀ x ∈ u, isWs x = true) ∧ (∀ x ∈ v, isWs x = true) := by
  refine ⟨s.takeWhile isWs,
    ((s.dropWhile isWs).reverse.takeWhile isWs).reverse, ?_, ?_, ?_⟩
  · conv_lhs => rw [← List.takeWhile_append_dropWhile isWs s]
    rw [List.append_assoc]
    congr 1
    conv_lhs => rw [← List.reverse_reverse (s.dropWhile isWs),
      ← List.takeWhile_append_dropWhile isWs (s.dropWhile isWs).reverse]
    rw [List.reverse_append]
    rfl
  · intro x hx
    exact List.mem_takeWhile_imp hx
  · intro x hx
    rw [List.mem_reverse] at hx
    exact List.mem_takeWhile_imp hx

/-- The substitution commutes with stripping: the source's order
(strip, then substitute) agrees with the specified order (substitute, then
strip). -/
theorem subBoiler_pyStrip_comm (t : List Char) :
    subBoiler (pyStrip t) = pyStrip (subBoiler t) := by
  obtain ⟨u, v, hdec, hu, hv⟩ := pyStrip_decomp t
  have hfix : pyStrip (subBoiler (pyStrip t)) = subBoiler (pyStrip t) :=
    pyStrip_fix
      (subBoiler_headOk (pyStrip_headOk t))
      (subBoiler_lastOk (pyStrip t).length (pyStrip t) (Nat.le_refl _)
        (pyStrip_lastOk t))
  have hsb : subBoiler t = u ++ (subBoiler (pyStrip t) ++ v) := by
    conv_lhs => rw [hdec]
    rw [List.append_assoc, subBoiler_ws_before u (pyStrip t ++ v) hu,
      subBoiler_ws_suffix (pyStrip t).length (pyStrip t) v (Nat.le_refl _) hv]
  rw [hsb, pyStrip_ws_prepend hu, pyStrip_ws_append hv, hfix]

/-- `_clean_markdown` computes the specified composition: collapse newline
runs, then strip the boilerplate spans, then trim outer whitespace. -/
theorem cleanMarkdown_spec_order (s : List Char) :
    cleanMarkdown s = pyStrip (subBoiler (collapseNewlines s)) := by
  rw [cleanMarkdown, subBoiler_pyStrip_comm]

/-- The output of `_clean_markdown` has no triple-newline run and no outer
whitespace. -/
theorem cleanMarkdown_invariants (s : List Char) :
    ¬ nlTriple <:+: cleanMarkdown s ∧
      pyStrip (cleanMarkdown s) = cleanMarkdown s := by
  constructor
  · rw [cleanMarkdown]
    apply subBoiler_noTriple (pyStrip (collapseNewlines s)).length _
      (Nat.le_refl _)
    intro hinf
    exact collapseNewlines_noTriple s
      (hinf.trans (pyStrip_within (collapseNewlines s)))
  · rw [cleanMarkdown]
    exact pyStrip_fix
      (subBoiler_headOk (pyStrip_headOk _))
      (subBoiler_lastOk (pyStrip (collapseNewlines s)).length _
        (Nat.le_refl _) (pyStrip_lastOk _))

/-- `_clean_markdown` is idempotent. -/
theorem cleanMarkdown_idem (s : List Char) :
    cleanMarkdown (cleanMarkdown s) = cleanMarkdown s := by
  obtain ⟨hnt, hstr⟩ := cleanMarkdown_invariants s
  have hcol : collapseNewlines (cleanMarkdown s) = cleanMarkdown s :=
    collapseGo_fix (cleanMarkdown s).length _ (Nat.le_refl _) hnt
  conv_lhs => rw [cleanMarkdown, hcol, hstr]
  rw [cleanMarkdown]
  exact subBoiler_idem _

/-! ## JSON values and `json.loads`

`json.loads` is modelled by a recursive-descent parser over the JSON
grammar Python uses (strict mode): objects, arrays, strings with escapes,
numbers without leading zeros, `true`/`false`/`null`, plus the Python
extensions `NaN`/`Infinity`/`-Infinity`.  Numbers are kept as their
literal text (no floating-point arithmetic is involved anywhere in the
program).  The recursion is fuel-indexed; every recursive call follows the
consumption of at least one input character, so fuel `length + 1`
suffices.  Surrogate-pair recombination in `\uXXXX` escapes is not
modelled. -/

inductive Json where
  | null : Json
  | bool (b : Bool) : Json
  | num (lit : List Char) : Json
  | str (s : List Char) : Json
  | arr (xs : List Json) : Json
  | obj (kvs : List (List Char × Json)) : Json

/-- JSON inter-token whitespace: space, tab, newline, carriage return. -/
def jsonWs (c : Char) : Bool := c = ' ' || c = '\t' || c = '\n' || c = '\r'

def skipJsonWs (s : List Char) : List Char := s.dropWhile jsonWs

def isDigit (c : Char) : Bool := '0' ≤ c && c ≤ '9'

def isHexDigit (c : Char) : Bool :=
  isDigit c || ('a' ≤ c && c ≤ 'f') || ('A' ≤ c && c ≤ 'F')

def hexVal (c : Char) : Nat :=
  if isDigit c then c.toNat - '0'.toNat
  else if 'a' ≤ c && c ≤ 'f' then c.toNat - 'a'.toNat + 10
  else c.toNat - 'A'.toNat + 10

/-- The body of a JSON string after the opening quote: collects characters
until the closing quote, decoding backslash escapes; control characters
below `0x20` are rejected (Python strict mode). -/
def parseStringBody (acc : List Char) : List Char → Option (List Char × List Char)
  | [] => none
  | c :: cs =>
    if c = '"' then some (acc.reverse, cs)
    else if c = '\\' then
      match cs with
      | [] => none
      | e :: es =>
        if e = '"' then parseStringBody ('"' :: acc) es
        else if e = '\\' then parseStringBody ('\\' :: acc) es
        else if e = '/' then parseStringBody ('/' :: acc) es
        else if e = 'b' then parseStringBody ('\x08' :: acc) es
        else if e = 'f' then parseStringBody ('\x0c' :: acc) es
        else if e = 'n' then parseStringBody ('\n' :: acc) es
        else if e = 'r' then parseStringBody ('\r' :: acc) es
        else if e = 't' then parseStringBody ('\t' :: acc) es
        else if e = 'u' then
          match es with
          | h1 :: h2 :: h3 :: h4 :: es2 =>
            if isHexDigit h1 && isHexDigit h2 && isHexDigit h3 &&
                isHexDigit h4 then
              parseStringBody
                (Char.ofNat (((hexVal h1 * 16 + hexVal h2) * 16 + hexVal h3)
                  * 16 + hexVal h4) :: acc) es2
            else none
          | _ => none
        else none
    else if c.toNat < 32 then none
    else parseStringBody (c :: acc) cs

/-- The integer part of a JSON number: `0` or a nonzero digit followed by
digits (leading zeros rejected, as in Python). -/
def parseIntPart : List Char → Option (List Char × List Char)
  | [] => none
  | c :: cs =>
    if c = '0' then some ([c], cs)
    else if isDigit c then
      some (c :: cs.takeWhile isDigit, cs.dropWhile isDigit)
    else none

/-- The optional fraction part `.digits`. -/
def parseFracPart (s : List Char) : List Char × List Char :=
  match s with
  | '.' :: cs =>
    if cs.takeWhile isDigit = [] then ([], s)
    else ('.' :: cs.takeWhile isDigit, cs.dropWhile isDigit)
  | _ => ([], s)

/-- The optional exponent part `[eE][+-]?digits`. -/
def parseExpPart (s : List Char) : List Char × List Char :=
  match s with
  | e :: cs =>
    if e = 'e' ∨ e = 'E' then
      match cs with
      | sgn :: cs2 =>
        if sgn = '+' ∨ sgn = '-' then
          if cs2.takeWhile isDigit = [] then ([], s)
          else (e :: sgn :: cs2.takeWhile isDigit, cs2.dropWhile isDigit)
        else
          if cs.takeWhile isDigit = [] then ([], s)
          else (e :: cs.takeWhile isDigit, cs.dropWhile isDigit)
      | [] => ([], s)
    else ([], s)
  | [] => ([], s)

/-- A JSON number literal, kept as its matched text. -/
def parseNumber : List Char → Option (List Char × List Char)
  | [] => none
  | c :: cs =>
    if c = '-' then
      match parseIntPart cs with
      | none => none
      | some (ip, r1) =>
        match parseFracPart r1 with
        | (fp, r2) =>
          match parseExpPart r2 with
          | (ep, r3) => some ('-' :: (ip ++ fp ++ ep), r3)
    else
      match parseIntPart (c :: cs) with
      | none => none
      | some (ip, r1) =>
        match parseFracPart r1 with
        | (fp, r2) =>
          match parseExpPart r2 with
          | (ep, r3) => some (ip ++ fp ++ ep, r3)

mutual

def parseValue : Nat → List Char → Option (Json × List Char)
  | 0, _ => none
  | fuel + 1, s =>
    match skipJsonWs s with
    | [] => none
    | c :: cs =>
      if c = '\x7b' then parseObjBody fuel cs []
      else if c = '[' then parseArrBody fuel cs []
      else if c = '"' then
        match parseStringBody [] cs with
        | none => none
        | some (st, rest) => some (Json.str st, rest)
      else if c = 't' then
        if cs.take 3 = ['r', 'u', 'e'] then some (Json.bool true, cs.drop 3)
        else none
      else if c = 'f' then
        if cs.take 4 = ['a', 'l', 's', 'e'] then
          some (Json.bool false, cs.drop 4)
        else none
      else if c = 'n' then
        if cs.take 3 = ['u', 'l', 'l'] then some (Json.null, cs.drop 3)
        else none
      else if c = 'N' then
        if cs.take 2 = ['a', 'N'] then
          some (Json.num ['N', 'a', 'N'], cs.drop 2)
        else none
      else if c = 'I' then
        if cs.take 7 = ['n', 'f', 'i', 'n', 'i', 't', 'y'] then
          some (Json.num "Infinity".data, cs.drop 7)
        else none
      else if c = '-' ∧ cs.take 8 = "Infinity".data then
        some (Json.num "-Infinity".data, cs.drop 8)
      else
        match parseNumber (c :: cs) with
        | none => none
        | some (lit, rest) => some (Json.num lit, rest)

def parseObjBody : Nat → List Char → List (List Char × Json) →
    Option (Json × List Char)
  | 0, _, _ => none
  | fuel + 1, s, acc =>
    match skipJsonWs s with
    | [] => none
    | c :: cs =>
      if c = '\x7d' then (if acc.isEmpty then some (Json.obj [], cs) else none)
      else if c = '"' then
        match parseStringBody [] cs with
        | none => none
        | some (key, r1) =>
          match skipJsonWs r1 with
          | ':' :: r2 =>
            match parseValue fuel r2 with
            | none => none
            | some (v, r3) =>
              match skipJsonWs r3 with
              | ',' :: r4 => parseObjBody fuel r4 (acc ++ [(key, v)])
              | '\x7d' :: r4 => some (Json.obj (acc ++ [(key, v)]), r4)
              | _ => none
          | _ => none
      else none

def parseArrBody : Nat → List Char → List Json → Option (Json × List Char)
  | 0, _, _ => none
  | fuel + 1, s, acc =>
    match skipJsonWs s with
    | [] => none
    | c :: cs =>
      if c = ']' then (if acc.isEmpty then some (Json.arr [], cs) else none)
      else
        match parseValue fuel (c :: cs) with
        | none => none
        | some (v, r1) =>
          match skipJsonWs r1 with
          | ',' :: r2 => parseArrBody fuel r2 (acc ++ [v])
          | ']' :: r2 => some (Json.arr (acc ++ [v]), r2)
          | _ => none

end

/-- `json.loads`: one JSON value, optionally surrounded by whitespace;
trailing data is an error. -/
def jsonLoads (s : List Char) : Option Json :=
  match parseValue (s.length + 1) s with
  | none => none
  | some (j, rest) => if skipJsonWs rest = [] then some j else none

/-! ## `process_with_openai` (script.py lines 143-236) -/

/-- The opening anchor of the fenced-block pattern
`re.search(r'```json\s*([\s\S]*?)\s*```', result_text)`. -/
def fenceOpen : List Char := "```json".data

/-- The closing anchor of the fenced-block pattern. -/
def fenceClose : List Char := "```".data

/-- The fenced-block search.  For this pattern, leftmost non-greedy
matching means: the match starts at the leftmost occurrence of
 ```json` that can be completed, the captured group ends at the first
following ` ``` `, and the two greedy `\s*` strip the maximal whitespace
runs from both ends of the group.  If the leftmost ` ```json ` has no
closing fence after it then no later one does either (a later ` ```json `
would itself contain a closing ` ``` `), so the search fails. -/
def extractFencedJson (t : List Char) : Option (List Char) :=
  match splitFirst fenceOpen t with
  | none => none
  | some pr =>
    match splitFirst fenceClose pr.2 with
    | none => none
    | some pr2 => some (pyStrip pr2.1)

/-- After `json_match`, `result_text` is the fenced group when a fence was
found, otherwise the whole reply (lines 211-215). -/
def parseCandidate (t : List Char) : List Char :=
  match extractFencedJson t with
  | some inner => inner
  | none => t

/-- An outcome of the `client.chat.completions.create` call: the reply
text `response.choices[0].message.content`, or a raised exception. -/
inductive LLMOutcome where
  | reply (text : List Char) : LLMOutcome
  | raises (msg : List Char) : LLMOutcome

/-- The truncation notice appended at line 158. -/
def truncNotice : List Char :=
  "\n\n[İçerik çok uzun olduğu için kısaltıldı]".data

/-- The truncation bound of line 156. -/
def maxChars : Nat := 15000

/-- Lines 155-158: content longer than 15000 characters is cut to its
first 15000 characters and the notice is appended. -/
def truncateContent (mdc : List Char) : List Char :=
  if mdc.length > maxChars then mdc.take maxChars ++ truncNotice else mdc

/-- The fixed instruction template (the triple-quoted string of lines
160-187, including its literal indentation). -/
def promptTemplate : List Char :=
  ("\n        Bu içerik Roma\x27daki yemek rehberi hakkında bilgiler içeriyor. Lütfen aşağıdaki bilgileri çıkar ve JSON formatında yanıt ver:\n" ++
   "        \n" ++
   "        1. Roma\x27da denenmesi gereken en önemli yemekler ve tatlılar nelerdir?\n" ++
   "        2. Her yemek için en iyi restoranlar hangileridir? (Adres ve iletişim bilgileriyle)\n" ++
   "        3. Roma mutfağının genel özellikleri nelerdir?\n" ++
   "        \n" ++
   "        Yanıtını şu formatta yapılandır:\n" ++
   "        \x7b\n" ++
   "          \"roma_mutfagi_ozellikleri\": \"...\",\n" ++
   "          \"yemekler\": [\n" ++
   "            \x7b\n" ++
   "              \"isim\": \"Yemek adı\",\n" ++
   "              \"aciklama\": \"Yemek hakkında kısa açıklama\",\n" ++
   "              \"en_iyi_restoranlar\": [\n" ++
   "                \x7b\n" ++
   "                  \"isim\": \"Restoran adı\",\n" ++
   "                  \"adres\": \"Adres\",\n" ++
   "                  \"iletisim\": \"Telefon veya web sitesi\"\n" ++
   "                \x7d\n" ++
   "              ]\n" ++
   "            \x7d\n" ++
   "          ]\n" ++
   "        \x7d\n" ++
   "        \n" ++
   "        İşlenecek içerik:\n" ++
   "        \n" ++
   "        ").data

/-- Line 189: `prompt += markdown_content` after the truncation step. -/
def buildPrompt (mdc : List Char) : List Char :=
  promptTemplate ++ truncateContent mdc

/-- The text fallback dictionary of lines 223-227. -/
def textFallbackObj (t : List Char) : Json :=
  Json.obj [("error".data, Json.bool false),
            ("text_response".data, Json.str t),
            ("format".data, Json.str "text".data)]

/-- The API-error dictionary of lines 233-236. -/
def apiErrorObj (m : List Char) : Json :=
  Json.obj [("error".data, Json.bool true),
            ("error_message".data, Json.str m)]

/-- `process_with_openai` (lines 143-236).  The completion call is the
oracle `llm`, applied to the built prompt (the model id, system message
and sampling parameters are constants inside the opaque call).  After a
reply: extract the fenced candidate, reassigning `result_text` to it; on
`json.loads` success return the parsed value as-is; on `JSONDecodeError`
return the text-fallback dictionary built from the current `result_text`
(which is the candidate, not the original reply).  A raised exception from
the call yields the API-error dictionary. -/
def process_with_openai (llm : List Char → LLMOutcome) (mdc : List Char) :
    Json :=
  match llm (buildPrompt mdc) with
  | LLMOutcome.raises msg => apiErrorObj msg
  | LLMOutcome.reply txt =>
    match jsonLoads (parseCandidate txt) with
    | some j => j
    | none => textFallbackObj (parseCandidate txt)

/-! ## `scrape_with_requests` (script.py lines 45-87) -/

/-- An outcome of `requests.get`: a raised exception (transport errors,
timeouts, malformed URLs, invalid proxy configuration) or a response with
a final status code and body text. -/
inductive RequestOutcome where
  | raises (msg : List Char) : RequestOutcome
  | response (status : Nat) (body : List Char) : RequestOutcome

/-- `response.raise_for_status()` raises exactly for 4xx and 5xx status
codes. -/
def raiseForStatusRaises (st : Nat) : Bool := 400 ≤ st && st < 600

/-- The body of the `try` block: `requests.get(...)`,
`response.raise_for_status()`, `return response.text`. -/
def scrapeAttempt (outcome : RequestOutcome) :
    Except (List Char) (List Char) :=
  match outcome with
  | RequestOutcome.raises m => Except.error m
  | RequestOutcome.response st body =>
    if raiseForStatusRaises st then Except.error ("HTTPError".data)
    else Except.ok body

/-- `scrape_with_requests`: the whole request is wrapped in
`try ... except Exception`, and every caught exception yields `""`. -/
def scrape_with_requests (outcome : RequestOutcome) : List Char :=
  match scrapeAttempt outcome with
  | Except.ok body => body
  | Except.error _ => []

/-! ## `scrape_and_process_roma_yemek` (script.py lines 238-274) and
`main` (lines 276-305) -/

structure PipelineResults where
  url : List Char
  title : List Char
  processed : Bool
  openai_result : Json

/-- The fixed title of line 250. -/
def defaultTitle : List Char := "Roma\x27da Ne Nerede Yenir".data

/-- `scrape_and_process_roma_yemek`, with the fetch step, the
BeautifulSoup+markdownify conversion and the completion call passed as
oracles.  The returned flag records whether the completion call was
issued. -/
def scrape_and_process_roma_yemek (fetch : List Char → List Char)
    (soupMd : List Char → List Char) (llm : List Char → LLMOutcome)
    (url : List Char) : PipelineResults × Bool :=
  let html := fetch url
  if html = [] then
    (PipelineResults.mk url defaultTitle false (Json.obj []), false)
  else
    (PipelineResults.mk url defaultTitle true
      (process_with_openai llm (html_to_markdown soupMd html)), true)

/-- Python `key in value` for the values that can appear as
`results["openai_result"]`: key membership for dicts, element equality
for lists, substring test for strings, `TypeError` otherwise. -/
def pyContains (k : List Char) : Json → Except Unit Bool
  | Json.obj kvs => Except.ok (kvs.any fun kv => decide (kv.1 = k))
  | Json.arr xs => Except.ok (xs.any fun x =>
      match x with
      | Json.str s => decide (s = k)
      | _ => false)
  | Json.str s => Except.ok (splitFirst k s).isSome
  | _ => Except.error ()

/-- What `main` prints (lines 299-305): the summary dump of
`openai_result`, or the failure message (with the `error_message` value
when one exists). -/
inductive MainOutput where
  | summary (j : Json) : MainOutput
  | failureReport (errMsg : Option Json) : MainOutput

/-- The failure branch of `main` (lines 302-305): prints the generic
failure line and, when `"error_message" in results["openai_result"]`, the
message value. -/
def mainFailureBranch (j : Json) : Except Unit MainOutput :=
  match pyContains ("error_message".data) j with
  | Except.error e => Except.error e
  | Except.ok true =>
    match j with
    | Json.obj kvs =>
      Except.ok (MainOutput.failureReport
        ((kvs.find? fun kv => decide (kv.1 = "error_message".data)).map
          (fun kv => kv.2)))
    | _ => Except.error ()
  | Except.ok false => Except.ok (MainOutput.failureReport none)

/-- The print decision of `main` (line 299):
`if results["processed"] and "error" not in results["openai_result"]`. -/
def mainPrint (r : PipelineResults) : Except Unit MainOutput :=
  if r.processed then
    match pyContains ("error".data) r.openai_result with
    | Except.error e => Except.error e
    | Except.ok true => mainFailureBranch r.openai_result
    | Except.ok false => Except.ok (MainOutput.summary r.openai_result)
  else mainFailureBranch r.openai_result

/-! ## Shared helper lemmas for the claims -/

theorem truncate_long {mdc : List Char} (h : mdc.length > maxChars) :
    truncateContent mdc = mdc.take maxChars ++ truncNotice ∧
    (truncateContent mdc).length = maxChars + truncNotice.length := by
  rw [truncateContent, if_pos h]
  refine ⟨rfl, ?_⟩
  rw [List.length_append, List.length_take]
  have : maxChars ≤ mdc.length := by omega
  omega

theorem truncate_short {mdc : List Char} (h : ¬ mdc.length > maxChars) :
    truncateContent mdc = mdc := by
  rw [truncateContent, if_neg h]

theorem processFallbackEq (mdc reply : List Char)
    (h : jsonLoads (parseCandidate reply) = none) :
    process_with_openai (fun _ => LLMOutcome.reply reply) mdc =
      textFallbackObj (parseCandidate reply) := by
  have hdef : process_with_openai (fun _ => LLMOutcome.reply reply) mdc =
      match jsonLoads (parseCandidate reply) with
      | some j => j
      | none => textFallbackObj (parseCandidate reply) := rfl
  rw [hdef, h]

theorem processParsedEq (mdc reply : List Char) {j : Json}
    (h : jsonLoads (parseCandidate reply) = some j) :
    process_with_openai (fun _ => LLMOutcome.reply reply) mdc = j := by
  have hdef : process_with_openai (fun _ => LLMOutcome.reply reply) mdc =
      match jsonLoads (parseCandidate reply) with
      | some j2 => j2
      | none => textFallbackObj (parseCandidate reply) := rfl
  rw [hdef, h]

/-- The keys of a JSON object (used to exhibit which fields the parsed
result carries). -/
def objKeys : Json → List (List Char)
  | Json.obj kvs => kvs.map fun kv => kv.1
  | _ => []

/-! ## The claims -/

/-- C10: for every outcome of the request, `scrape_with_requests` never
propagates an exception: every raised exception — transport or pre-request
errors from `requests.get` as well as the `HTTPError` raised by
`raise_for_status` on a 4xx/5xx status — yields the empty string, and a
2xx response yields the response body. -/
theorem c10_scrape_never_raises (o : RequestOutcome) :
    (∀ m, scrapeAttempt o = Except.error m → scrape_with_requests o = []) ∧
    (∀ st body, o = RequestOutcome.response st body → 200 ≤ st → st < 300 →
      scrape_with_requests o = body) := by
  constructor
  · intro m hm
    rw [scrape_with_requests, hm]
  · intro st body ho h2 h3
    subst ho
    have hrs : raiseForStatusRaises st = false := by
      rw [raiseForStatusRaises]
      simp
      omega
    rw [scrape_with_requests, scrapeAttempt, hrs]
    simp

theorem c10_scrape_never_raises_witness :
    scrape_with_requests (RequestOutcome.response 200 ("ok".data)) =
      "ok".data ∧
    scrape_with_requests (RequestOutcome.raises ("boom".data)) = [] ∧
    scrape_with_requests (RequestOutcome.response 404 ("nf".data)) = [] :=
  ⟨(c10_scrape_never_raises _).2 200 ("ok".data) rfl (by decide) (by decide),
   (c10_scrape_never_raises _).1 ("boom".data) rfl,
   (c10_scrape_never_raises _).1 ("HTTPError".data) rfl⟩

/-- C3: content longer than `max_chars = 15000` characters is replaced by
exactly its first 15000 characters followed by the fixed truncation
notice — so its length is exactly `15000 + truncNotice.length` — while
content of length at most 15000 passes through unchanged. -/
theorem c3_truncation (mdc : List Char) :
    (mdc.length > maxChars →
      truncateContent mdc = mdc.take maxChars ++ truncNotice ∧
      (truncateContent mdc).length = maxChars + truncNotice.length) ∧
    (mdc.length ≤ maxChars → truncateContent mdc = mdc) := by
  constructor
  · intro h
    exact truncate_long h
  · intro h
    exact truncate_short (by omega)

theorem c3_truncation_witness :
    ((List.replicate 15001 'a').length > maxChars ∧
      truncateContent (List.replicate 15001 'a') =
        (List.replicate 15001 'a').take maxChars ++ truncNotice ∧
      (truncateContent (List.replicate 15001 'a')).length =
        maxChars + truncNotice.length) ∧
    ("ab".data.length ≤ maxChars ∧ truncateContent ("ab".data) = "ab".data) := by
  have hlong : (List.replicate 15001 'a').length > maxChars := by
    rw [List.length_replicate, maxChars]
    omega
  have hshort : ("ab".data.length ≤ maxChars) := by
    rw [maxChars]
    simp
  refine ⟨⟨hlong, ?_, ?_⟩, hshort, (c3_truncation _).2 hshort⟩
  · exact ((c3_truncation _).1 hlong).1
  · exact ((c3_truncation _).1 hlong).2

/-- C8 counterexample: for a document of 15001 characters, the built
prompt is strictly longer than `promptTemplate.length + 15000`, because
the truncation notice is appended on top of the 15000 retained
characters.  The claim's bound `max_chars + template length` is
violated. -/
theorem c8_counterexample :
    (buildPrompt (List.replicate 15001 'a')).length >
      promptTemplate.length + maxChars := by
  have hlong : (List.replicate 15001 'a').length > maxChars := by
    rw [List.length_replicate, maxChars]
    omega
  have h2 := (truncate_long hlong).2
  rw [buildPrompt, List.length_append, h2]
  have hnl : 0 < truncNotice.length := by decide
  omega

/-- C8 (amended): the built prompt never exceeds
`promptTemplate.length + max_chars + truncNotice.length`: truncation is
applied to the document only, and the fixed truncation notice is the only
material added beyond the 15000-character document bound. -/
theorem c8_prompt_bound (mdc : List Char) :
    (buildPrompt mdc).length ≤
      promptTemplate.length + maxChars + truncNotice.length := by
  rw [buildPrompt, List.length_append]
  by_cases h : mdc.length > maxChars
  · have h2 := (truncate_long h).2
    omega
  · have h2 := truncate_short h
    rw [h2]
    omega

/-- A model reply wrapping non-JSON content in a `json`-tagged fence. -/
def c2reply : List Char := "```json\nnot json\n```".data

/-- C2 counterexample: for the reply ` ```json\nnot json\n``` ` the parse
candidate `not json` fails to parse, and the degraded result's
`text_response` is the candidate `not json` — not the full original reply,
which the claim requires (`result_text` was reassigned to the fenced group
before the failed `json.loads`). -/
theorem c2_counterexample :
    process_with_openai (fun _ => LLMOutcome.reply c2reply) [] =
      textFallbackObj ("not json".data) ∧
    "not json".data ≠ c2reply := by
  exact ⟨rfl, by decide⟩

/-- C2 (amended): when the parse candidate (the fenced group if present,
else the whole reply) fails to parse as JSON, the result is the degraded
non-error text outcome whose `text_response` is the *candidate* — the
fenced inner content when a fence was found, else the whole reply. -/
theorem c2_fallback_is_candidate (mdc reply : List Char)
    (h : jsonLoads (parseCandidate reply) = none) :
    process_with_openai (fun _ => LLMOutcome.reply reply) mdc =
      textFallbackObj (parseCandidate reply) :=
  processFallbackEq mdc reply h

theorem c2_fallback_is_candidate_witness :
    jsonLoads (parseCandidate c2reply) = none ∧
    process_with_openai (fun _ => LLMOutcome.reply c2reply) [] =
      textFallbackObj (parseCandidate c2reply) :=
  ⟨rfl, c2_fallback_is_candidate [] c2reply rfl⟩

/-- A model reply that is a JSON object with one unknown field. -/
def c5reply : List Char := "\x7b\"foo\": 1\x7d".data

/-- C5 counterexample: the reply `{"foo": 1}` parses, and the result is
the parsed object itself: the unknown extra field `foo` is kept (not
ignored) and none of the schema fields is defaulted to an empty
string/sequence. -/
theorem c5_counterexample :
    process_with_openai (fun _ => LLMOutcome.reply c5reply) [] =
      Json.obj [("foo".data, Json.num ['1'])] ∧
    "foo".data ∈ objKeys
      (process_with_openai (fun _ => LLMOutcome.reply c5reply) []) ∧
    "yemekler".data ∉ objKeys
      (process_with_openai (fun _ => LLMOutcome.reply c5reply) []) ∧
    "roma_mutfagi_ozellikleri".data ∉ objKeys
      (process_with_openai (fun _ => LLMOutcome.reply c5reply) []) := by
  refine ⟨rfl, ?_, ?_, ?_⟩ <;> decide

/-- C5 (amended): when the parse candidate parses successfully as JSON,
the result is the parsed JSON value itself, returned verbatim: no
defaulting of missing fields and no filtering of unknown fields. -/
theorem c5_parsed_verbatim (mdc reply : List Char) (j : Json)
    (h : jsonLoads (parseCandidate reply) = some j) :
    process_with_openai (fun _ => LLMOutcome.reply reply) mdc = j :=
  processParsedEq mdc reply h

theorem c5_parsed_verbatim_witness :
    jsonLoads (parseCandidate c5reply) =
      some (Json.obj [("foo".data, Json.num ['1'])]) ∧
    process_with_openai (fun _ => LLMOutcome.reply c5reply) [] =
      Json.obj [("foo".data, Json.num ['1'])] :=
  ⟨rfl, c5_parsed_verbatim [] c5reply _ rfl⟩

/-- C1 counterexample: when the fetch returns empty HTML the pipeline
does return `processed = false` without issuing the completion call, but
`openai_result` is left as the initial empty dictionary — not the
`Failed{"fetch returned no content"}` value the claim requires (no such
message exists anywhere in the program). -/
theorem c1_counterexample :
    scrape_and_process_roma_yemek (fun _ => []) (fun _ => [])
        (fun _ => LLMOutcome.raises []) ("u".data) =
      (PipelineResults.mk ("u".data) defaultTitle false (Json.obj []),
        false) ∧
    Json.obj [] ≠ apiErrorObj ("fetch returned no content".data) := by
  constructor
  · rfl
  · intro hcon
    rw [apiErrorObj] at hcon
    simp at hcon

/-- C1 (amended): for every url on which the fetch step returns empty
HTML, the pipeline short-circuits: it returns `processed = false` with
`openai_result` still the initial empty dictionary, and the completion
call is never issued. -/
theorem c1_short_circuit (fetch soupMd : List Char → List Char)
    (llm : List Char → LLMOutcome) (url : List Char)
    (h : fetch url = []) :
    scrape_and_process_roma_yemek fetch soupMd llm url =
      (PipelineResults.mk url defaultTitle false (Json.obj []), false) := by
  rw [scrape_and_process_roma_yemek]
  simp [h]

theorem c1_short_circuit_witness :
    scrape_and_process_roma_yemek (fun _ => []) (fun _ => [])
        (fun _ => LLMOutcome.raises []) ("u".data) =
      (PipelineResults.mk ("u".data) defaultTitle false (Json.obj []),
        false) :=
  c1_short_circuit (fun _ => []) (fun _ => [])
    (fun _ => LLMOutcome.raises []) ("u".data) rfl

/-- C6: when the fetch succeeds and the model's reply is not valid JSON,
the pipeline does recover it as the degraded text dictionary, but `main`
then takes the ERROR branch: the fallback dictionary contains the key
`"error"` (with value `False`), and line 299 tests key *presence*
(`"error" not in results["openai_result"]`), so the degraded result is
reported as a failure instead of being printed as a text result. -/
theorem c6_fallback_hits_error_branch (fetch soupMd : List Char → List Char)
    (url reply : List Char) (hfetch : ¬ fetch url = [])
    (hparse : jsonLoads (parseCandidate reply) = none) :
    mainPrint (scrape_and_process_roma_yemek fetch soupMd
        (fun _ => LLMOutcome.reply reply) url).1 =
      Except.ok (MainOutput.failureReport none) := by
  rw [scrape_and_process_roma_yemek]
  simp only [hfetch, if_neg, ite_false]
  rw [processFallbackEq _ _ hparse]
  rfl

theorem c6_fallback_hits_error_branch_witness :
    ¬ (fun (_ : List Char) => "x".data) ("u".data) = [] ∧
    jsonLoads (parseCandidate ("no json here".data)) = none ∧
    mainPrint (scrape_and_process_roma_yemek (fun _ => "x".data)
        (fun _ => []) (fun _ => LLMOutcome.reply ("no json here".data))
        ("u".data)).1 =
      Except.ok (MainOutput.failureReport none) :=
  ⟨by decide, rfl,
    c6_fallback_hits_error_branch (fun _ => "x".data) (fun _ => [])
      ("u".data) ("no json here".data) (by decide) rfl⟩

/-- C7: `_clean_markdown` computes exactly the composition the claim
describes — collapse runs of 3+ newlines to 2, then remove the
`Skip to content ... Biz Evde Yokuz` boilerplate spans, then trim outer
whitespace.  (The source code executes the trim before the boilerplate
removal, but the two operations commute, so the normalised text equals
the claimed composition for every input.) -/
theorem c7_clean_markdown_order (s : List Char) :
    cleanMarkdown s = pyStrip (subBoiler (collapseNewlines s)) :=
  cleanMarkdown_spec_order s

/-- C4: the output of `_clean_markdown` never contains a substring of
three or more consecutive newline characters, and carries no leading or
trailing whitespace (stripping it again changes nothing). -/
theorem c4_normalizer_invariants (s : List Char) :
    ¬ nlTriple <:+: cleanMarkdown s ∧
      pyStrip (cleanMarkdown s) = cleanMarkdown s :=
  cleanMarkdown_invariants s

/-- C9: `_clean_markdown` is idempotent: applying it to its own output
returns that output unchanged. -/
theorem c9_normalize_idem (s : List Char) :
    cleanMarkdown (cleanMarkdown s) = cleanMarkdown s :=
  cleanMarkdown_idem s

end RomaScraper
